import Mathlib

/-!
Verification development for the OpenMC / surrogate-heat coupling driver
(`openmc_heat_driver.cpp`, namespace `stream`).

The C++ code is shallowly embedded over exact rational arithmetic (`ℚ` in
place of IEEE doubles, so every identity proved here is the exact-arithmetic
content of the floating-point computation).  External collaborators are
parameters:

* the transport solver's point-location query is a parameter
  `locate : Position → C` into an arbitrary decidable-equality type of cell
  keys (structural identity of `CellInstance` is delegated to the transport
  solver, matching the design);
* the math library's `cos`, `sin` and the constant `PI` are parameters
  `cosf sinf : ℚ → ℚ`, `pi : ℚ` (they are external library calls in the
  source);
* transport tally results are a parameter `Q : ℕ → ℚ` indexed by
  cell-instance index, already scaled by total power (the scaling happens
  inside the external `heat_source` call).

Division by zero: `ℚ` division is total with `x / 0 = 0`, while the C++
double division produces a non-finite value.  Where the divisor can be zero
in the source (`update_temperature`), the average is embedded with an
explicit guard returning `Option ℚ`, `none` marking the non-finite outcome;
everywhere else theorems carry a nonemptiness hypothesis so that the junk
value `0/0 = 0` is never relied upon.
-/

namespace Enrico

/-- A 3-D point (`Position r {x, y, zavg}` in the source). -/
structure Position where
  x : ℚ
  y : ℚ
  z : ℚ

/-- The geometric data the driver reads from the surrogate heat solver:
counts, radial grid boundaries (fuel and cladding), axial boundaries and
pin centers.  `n_rings_` models the accessor `n_rings()` (total radial ring
count per pin); grids are total functions, the driver only reads indices
inside the grid extents. -/
structure HeatGeom where
  n_pins_ : ℕ
  n_axial_ : ℕ
  n_fuel_rings_ : ℕ
  n_rings_ : ℕ
  r_grid_fuel_ : ℕ → ℚ
  r_grid_clad_ : ℕ → ℚ
  z_ : ℕ → ℚ
  pin_centers_ : List (ℚ × ℚ)

/-! ## Heat-source projection (`update_heat_source`, lines 130-162)

The heat-conduction source field `source_` is a `(n_pins, n_axial, n_rings)`
array addressed by `source_.at(i, j, k)`; it is embedded as a total function
on index triples.  The loop runs the same running counter `ring_index` as
`init_mappings`, carried here in the fold accumulator. -/

/-- Pointwise write into the source field (`source_.at(i,j,k) = v`). -/
def sourceUpd (s : ℕ × ℕ × ℕ → ℚ) (t : ℕ × ℕ × ℕ) (v : ℚ) : ℕ × ℕ × ℕ → ℚ :=
  fun t' => if t' = t then v else s t'

/-- Average of the tally values over one ring's forward-mapping entries:
the source accumulates `q_avg += Q(idx)` over `cell_instances` and then
divides by `cell_instances.size()`. -/
def qavg (cell_instances : List ℕ) (Q : ℕ → ℚ) : ℚ :=
  (cell_instances.foldl (fun a idx => a + Q idx) 0) / (cell_instances.length : ℚ)

/-- Innermost loop of `update_heat_source`: radial rings `k < nr` of one
`(pin i, axial j)` column, with fuel test `k < nf`.  The accumulator pairs
the source field with the running `ring_index` counter. -/
def uhsRingFold (nf : ℕ) (r2c : ℕ → List ℕ) (Q : ℕ → ℚ) (i j nr : ℕ)
    (p : (ℕ × ℕ × ℕ → ℚ) × ℕ) : (ℕ × ℕ × ℕ → ℚ) × ℕ :=
  (List.range nr).foldl
    (fun p k =>
      ((if k < nf then sourceUpd p.1 (i, j, k) (qavg (r2c p.2) Q) else p.1),
       p.2 + 1))
    p

/-- Middle loop of `update_heat_source`: axial layers `j < nz` of pin `i`. -/
def uhsAxialFold (nf : ℕ) (r2c : ℕ → List ℕ) (Q : ℕ → ℚ) (i nz nr : ℕ)
    (p : (ℕ × ℕ × ℕ → ℚ) × ℕ) : (ℕ × ℕ × ℕ → ℚ) × ℕ :=
  (List.range nz).foldl (fun p j => uhsRingFold nf r2c Q i j nr p) p

/-- The heat-source projector.  It first zeroes the whole field (the loop
over `source_`), then walks pins × axial layers × rings writing the mean
tally value of each fuel ring's forward mapping; the prior contents `src`
are discarded by the zeroing exactly as in the source. -/
def update_heat_source (g : HeatGeom) (r2c : ℕ → List ℕ) (Q : ℕ → ℚ)
    (src : ℕ × ℕ × ℕ → ℚ) : ℕ × ℕ × ℕ → ℚ :=
  let zeroed : ℕ × ℕ × ℕ → ℚ := fun _ => 0
  ((List.range g.n_pins_).foldl
    (fun p i => uhsAxialFold g.n_fuel_rings_ r2c Q i g.n_axial_ g.n_rings_ p)
    (zeroed, 0)).1

/-! ## Temperature projection (`update_temperature`, lines 164-206)

The temperature field is read through a flattened view (`xt::flatten`), so it
is embedded as a function of the flattened ring index.  The per-cell average
divides by the accumulated `total_vol` with no guard in the source; the
embedding guards the division, `none` marking the non-finite result the
double division would produce when `total_vol` is zero. -/

/-- Radial-area weight of a flattened ring index: the source recovers the
radial sub-index as `ring_index % n_rings()` and takes
`r(i+1)*r(i+1) - r(i)*r(i)` on the fuel or cladding grid. -/
def vol_of (g : HeatGeom) (ring_index : ℕ) : ℚ :=
  let i := ring_index % g.n_rings_
  if i < g.n_fuel_rings_ then
    g.r_grid_fuel_ (i+1) * g.r_grid_fuel_ (i+1) - g.r_grid_fuel_ i * g.r_grid_fuel_ i
  else
    let j := i - g.n_fuel_rings_
    g.r_grid_clad_ (j+1) * g.r_grid_clad_ (j+1) - g.r_grid_clad_ j * g.r_grid_clad_ j

/-- Volume-weighted average temperature of one cell instance over its
mapped rings: the loop accumulates `average_temp += temperature(r)*vol` and
`total_vol += vol`, then divides.  The zero-divisor branch is made explicit. -/
def cellAvgTemp (g : HeatGeom) (temperature : ℕ → ℚ) (rings : List ℕ) : Option ℚ :=
  let p := rings.foldl
    (fun (acc : ℚ × ℚ) r => (acc.1 + temperature r * vol_of g r, acc.2 + vol_of g r))
    (0, 0)
  if p.2 = 0 then none else some (p.1 / p.2)

/-- The temperature projector: for each cell-instance index `i` below the
registry size, the volume-averaged temperature over `cell_inst_to_ring_[i]`
is written to that cell instance (the list below collects the per-cell
writes in loop order). -/
def update_temperature (g : HeatGeom) (c2r : ℕ → List ℕ) (temperature : ℕ → ℚ)
    (ncells : ℕ) : List (Option ℚ) :=
  (List.range ncells).map (fun i => cellAvgTemp g temperature (c2r i))

/-! ## Coupling controller (`solve_step`, lines 101-128)

The controller is embedded by its trace of observable actions. -/

/-- One observable action of `solve_step`. -/
inductive Event where
  | initStep : Event
  | solveTransport : ℕ → Event
  | finalizeStep : Event
  | barrier : Event
  | updateHeatSource : Event
  | solveHeat : Event
  | updateTemperature : Event
deriving DecidableEq

/-- Trace of one inner Picard iteration `(i_timestep, i_picard)`: transport
initialize/advance/finalize when transport is active, with advance index
`i_timestep * max_timesteps_ + i_picard`; then a barrier; the heat-source
projection; the heat solve when the heat solver is active; a barrier; the
temperature projection. -/
def picardIter (transportActive heatActive : Bool) (max_timesteps i_timestep i_picard : ℕ) :
    List Event :=
  (if transportActive then
      [Event.initStep,
       Event.solveTransport (i_timestep * max_timesteps + i_picard),
       Event.finalizeStep]
    else [])
  ++ [Event.barrier, Event.updateHeatSource]
  ++ (if heatActive then [Event.solveHeat] else [])
  ++ [Event.barrier, Event.updateTemperature]

/-- Full trace of `solve_step`: `max_timesteps_` outer timesteps, each of
`max_picard_iter_` inner Picard iterations. -/
def solve_step_trace (transportActive heatActive : Bool)
    (max_timesteps max_picard_iter : ℕ) : List Event :=
  (List.range max_timesteps).flatMap (fun i_timestep =>
    (List.range max_picard_iter).flatMap (fun i_picard =>
      picardIter transportActive heatActive max_timesteps i_timestep i_picard))

/-! ## Mapping construction (`init_mappings`, lines 33-87)

State of the build: the transport solver's append-only cell registry
`cells_`, the local `tracked` table (cell key, assigned index), and the two
mapping tables, embedded as total functions defaulting to the empty list
(the C++ `std::map::operator[]` default-constructs an empty vector). -/

/-- Mutable state threaded through `init_mappings`. -/
structure MapState (C : Type) where
  cells_ : List C
  tracked : List (C × ℕ)
  cell_inst_to_ring_ : ℕ → List ℕ
  ring_to_cell_inst_ : ℕ → List ℕ

/-- The empty initial state (fresh driver, empty registry and tables). -/
def initState (C : Type) : MapState C :=
  ⟨[], [], fun _ => [], fun _ => []⟩

/-- Pointwise update of a mapping table. -/
def updFn (f : ℕ → List ℕ) (key : ℕ) (v : List ℕ) : ℕ → List ℕ :=
  fun n => if n = key then v else f n

/-- Lookup in the `tracked` table (`tracked.find(c)`). -/
def findTracked {C : Type} [DecidableEq C] (tr : List (C × ℕ)) (c : C) : Option ℕ :=
  (tr.find? (fun p => p.1 = c)).map Prod.snd

/-- Body of the azimuthal sample loop, given the located cell key `c` and
the current `ring_index`: register `c` if unseen (its index is the registry
size before the push), then append `ring_index` to the cell's reverse entry
and the cell's index to the ring's forward entry. -/
def azStep {C : Type} [DecidableEq C] (s : MapState C) (ring_index : ℕ) (c : C) :
    MapState C :=
  match findTracked s.tracked c with
  | some idx =>
      { s with
        cell_inst_to_ring_ :=
          updFn s.cell_inst_to_ring_ idx (s.cell_inst_to_ring_ idx ++ [ring_index]),
        ring_to_cell_inst_ :=
          updFn s.ring_to_cell_inst_ ring_index (s.ring_to_cell_inst_ ring_index ++ [idx]) }
  | none =>
      let idx := s.cells_.length
      { cells_ := s.cells_ ++ [c],
        tracked := s.tracked ++ [(c, idx)],
        cell_inst_to_ring_ :=
          updFn s.cell_inst_to_ring_ idx (s.cell_inst_to_ring_ idx ++ [ring_index]),
        ring_to_cell_inst_ :=
          updFn s.ring_to_cell_inst_ ring_index (s.ring_to_cell_inst_ ring_index ++ [idx]) }

/-- Sample angle of azimuthal sample `m`:
`theta = 2.0*m*PI/n_azimuthal + 0.01` with `n_azimuthal = 4`. -/
def sampleTheta (pi : ℚ) (m : ℕ) : ℚ :=
  2 * (m : ℚ) * pi / 4 + 0.01

/-- Sample point of azimuthal sample `m` at mid-radius `ravg` and
mid-height `zavg`: `(ravg*cos(theta), ravg*sin(theta), zavg)`. -/
def samplePos (cosf sinf : ℚ → ℚ) (pi : ℚ) (ravg zavg : ℚ) (m : ℕ) : Position :=
  ⟨ravg * cosf (sampleTheta pi m), ravg * sinf (sampleTheta pi m), zavg⟩

/-- Mid-radius of radial ring `k`: fuel grid when `k < n_fuel_rings_`, else
cladding grid at offset `k - n_fuel_rings_`. -/
def ravgOf (g : HeatGeom) (k : ℕ) : ℚ :=
  if k < g.n_fuel_rings_ then
    (0.5 : ℚ) * (g.r_grid_fuel_ k + g.r_grid_fuel_ (k+1))
  else
    let m := k - g.n_fuel_rings_
    (0.5 : ℚ) * (g.r_grid_clad_ m + g.r_grid_clad_ (m+1))

/-- Mid-height of axial layer `j`: `0.5*(z(j) + z(j+1))`. -/
def zavgOf (g : HeatGeom) (j : ℕ) : ℚ :=
  (0.5 : ℚ) * (g.z_ j + g.z_ (j+1))

/-- The azimuthal sample loop of one ring: `n_azimuthal` iterations of
`azStep`, the located cell key of sample `m` given by `f m`. -/
def azFold {C : Type} [DecidableEq C] (ring_index : ℕ) (f : ℕ → C) (n_azimuthal : ℕ)
    (s : MapState C) : MapState C :=
  (List.range n_azimuthal).foldl (fun s' m => azStep s' ring_index (f m)) s

/-- Body of the radial-ring loop for loop indices `(i, j, k)` at the current
`ring_index`: run the `n_azimuthal = 4` sample loop.  The pin index `i` is
the first component of the triple; the source never reads it inside the
body (the sample point depends only on `j`, `k` and `m`). -/
def ringStep {C : Type} [DecidableEq C] (g : HeatGeom) (cosf sinf : ℚ → ℚ) (pi : ℚ)
    (locate : Position → C) (s : MapState C) (ring_index : ℕ) (t : ℕ × ℕ × ℕ) :
    MapState C :=
  let j := t.2.1
  let k := t.2.2
  azFold ring_index
    (fun m => locate (samplePos cosf sinf pi (ravgOf g k) (zavgOf g j) m)) 4 s

/-- The loop triples `(i, j, k)` of the pins × axial × rings nest, in
iteration order. -/
def ringTriplesN (npins nz nrings : ℕ) : List (ℕ × ℕ × ℕ) :=
  (List.range npins).flatMap (fun i =>
    (List.range nz).flatMap (fun j =>
      (List.range nrings).map (fun k => (i, j, k))))

/-- Fold of `ringStep` over a triple list, threading the `ring_index`
counter (incremented once per ring, i.e. per triple). -/
def initFold {C : Type} [DecidableEq C] (g : HeatGeom) (cosf sinf : ℚ → ℚ) (pi : ℚ)
    (locate : Position → C) (l : List (ℕ × ℕ × ℕ)) (p : MapState C × ℕ) :
    MapState C × ℕ :=
  l.foldl (fun p t => (ringStep g cosf sinf pi locate p.1 p.2 t, p.2 + 1)) p

/-- The mapping builder: iterate pins (the pin count is the number of rows
of `pin_centers_`) × axial layers × radial rings, starting from the empty
state and `ring_index = 0`. -/
def init_mappings {C : Type} [DecidableEq C] (g : HeatGeom) (cosf sinf : ℚ → ℚ)
    (pi : ℚ) (locate : Position → C) : MapState C :=
  (initFold g cosf sinf pi locate
    (ringTriplesN g.pin_centers_.length g.n_axial_ g.n_rings_)
    (initState C, 0)).1

/-! ## Verification predicates and concrete instances -/

/-- Forward/reverse consistency of the two mapping tables: a ring is in a
cell's reverse entry exactly when the cell is in the ring's forward entry. -/
def MemIff {C : Type} (s : MapState C) : Prop :=
  ∀ r c', r ∈ s.cell_inst_to_ring_ c' ↔ c' ∈ s.ring_to_cell_inst_ r

/-- Coverage invariant: every registered cell-instance index appears in some
ring's forward entry, every `tracked` index is a valid registry index, and
every forward entry holds only valid registry indices. -/
def Coverage {C : Type} (s : MapState C) : Prop :=
  (∀ idx, idx < s.cells_.length → ∃ r, idx ∈ s.ring_to_cell_inst_ r) ∧
  (∀ p ∈ s.tracked, p.2 < s.cells_.length) ∧
  (∀ r idx, idx ∈ s.ring_to_cell_inst_ r → idx < s.cells_.length)

/-- Concrete geometry: one pin, one axial layer, one (fuel) radial ring,
with a degenerate (constant) fuel radial grid. -/
def gDeg : HeatGeom :=
  ⟨1, 1, 1, 1, fun _ => 1, fun _ => 2, fun _ => 0, [(0, 0)]⟩

/-- Concrete geometry: one pin, one axial layer, two radial rings (one fuel,
one cladding), with non-degenerate radial grids. -/
def gDemo : HeatGeom :=
  ⟨1, 1, 1, 2, fun n => (n : ℚ), fun n => (n : ℚ) + 1, fun _ => 0, [(0, 0)]⟩

/-! ## Supporting lemmas -/

theorem foldl_add_eq_sum (Q : ℕ → ℚ) (l : List ℕ) : ∀ a : ℚ,
    l.foldl (fun a idx => a + Q idx) a = a + (l.map Q).sum := by
  induction l with
  | nil => intro a; simp
  | cons x xs ih => intro a; simp [ih, add_assoc]

theorem qavg_eq_mean (cell_instances : List ℕ) (Q : ℕ → ℚ) :
    qavg cell_instances Q = (cell_instances.map Q).sum / (cell_instances.length : ℚ) := by
  simp [qavg, foldl_add_eq_sum]

theorem tempFold_spec (g : HeatGeom) (temperature : ℕ → ℚ) (rings : List ℕ) : ∀ a b : ℚ,
    rings.foldl
      (fun (acc : ℚ × ℚ) r => (acc.1 + temperature r * vol_of g r, acc.2 + vol_of g r))
      (a, b)
    = (a + (rings.map (fun r => temperature r * vol_of g r)).sum,
       b + (rings.map (vol_of g)).sum) := by
  induction rings with
  | nil => intro a b; simp
  | cons r rs ih => intro a b; simp [ih, add_assoc]

theorem cellAvgTemp_eq (g : HeatGeom) (temperature : ℕ → ℚ) (rings : List ℕ) :
    cellAvgTemp g temperature rings =
      if (rings.map (vol_of g)).sum = 0 then none
      else some ((rings.map (fun r => temperature r * vol_of g r)).sum /
        (rings.map (vol_of g)).sum) := by
  simp only [cellAvgTemp]
  rw [tempFold_spec]
  simp

theorem uhsRingFold_spec (nf : ℕ) (r2c : ℕ → List ℕ) (Q : ℕ → ℚ) (i j : ℕ) :
    ∀ (nr : ℕ) (s : ℕ × ℕ × ℕ → ℚ) (n : ℕ),
      (uhsRingFold nf r2c Q i j nr (s, n)).2 = n + nr ∧
      ∀ a b c, (uhsRingFold nf r2c Q i j nr (s, n)).1 (a, b, c) =
        if a = i ∧ b = j ∧ c < nr ∧ c < nf then qavg (r2c (n + c)) Q
        else s (a, b, c) := by
  intro nr
  induction nr with
  | zero =>
    intro s n
    exact ⟨by simp [uhsRingFold], by intro a b c; simp [uhsRingFold]⟩
  | succ nr ih =>
    intro s n
    obtain ⟨ihc, ihf⟩ := ih s n
    have hc1 : (uhsRingFold nf r2c Q i j (nr + 1) (s, n)).2 =
        (uhsRingFold nf r2c Q i j nr (s, n)).2 + 1 := by
      simp [uhsRingFold, List.range_succ]
    have hf1 : (uhsRingFold nf r2c Q i j (nr + 1) (s, n)).1 =
        (if nr < nf then
          sourceUpd (uhsRingFold nf r2c Q i j nr (s, n)).1 (i, j, nr)
            (qavg (r2c (uhsRingFold nf r2c Q i j nr (s, n)).2) Q)
        else (uhsRingFold nf r2c Q i j nr (s, n)).1) := by
      by_cases hnf : nr < nf <;> simp [uhsRingFold, List.range_succ, hnf]
    refine ⟨by rw [hc1, ihc]; omega, ?_⟩
    intro a b c
    rw [hf1, ihc]
    by_cases hnf : nr < nf
    · simp only [if_pos hnf, sourceUpd]
      rw [ihf a b c]
      simp only [Prod.mk.injEq]
      split_ifs with h1 h2 h3 <;> try rfl
      · obtain ⟨rfl, rfl, rfl⟩ := h1; rfl
      all_goals omega
    · simp only [if_neg hnf]
      rw [ihf a b c]
      split_ifs with h1 h2 <;> try rfl
      all_goals omega

theorem uhsAxialFold_spec (nf : ℕ) (r2c : ℕ → List ℕ) (Q : ℕ → ℚ) (i nr : ℕ) :
    ∀ (nz : ℕ) (s : ℕ × ℕ × ℕ → ℚ) (n : ℕ),
      (uhsAxialFold nf r2c Q i nz nr (s, n)).2 = n + nz * nr ∧
      ∀ a b c, (uhsAxialFold nf r2c Q i nz nr (s, n)).1 (a, b, c) =
        if a = i ∧ b < nz ∧ c < nr ∧ c < nf then qavg (r2c (n + b * nr + c)) Q
        else s (a, b, c) := by
  intro nz
  induction nz with
  | zero =>
    intro s n
    exact ⟨by simp [uhsAxialFold], by intro a b c; simp [uhsAxialFold]⟩
  | succ nz ih =>
    intro s n
    obtain ⟨ihc, ihf⟩ := ih s n
    have hstep : uhsAxialFold nf r2c Q i (nz + 1) nr (s, n) =
        uhsRingFold nf r2c Q i nz nr (uhsAxialFold nf r2c Q i nz nr (s, n)) := by
      simp [uhsAxialFold, List.range_succ]
    have hring := uhsRingFold_spec nf r2c Q i nz nr
      (uhsAxialFold nf r2c Q i nz nr (s, n)).1 (uhsAxialFold nf r2c Q i nz nr (s, n)).2
    rw [Prod.mk.eta] at hring
    obtain ⟨hrc, hrf⟩ := hring
    constructor
    · rw [hstep, hrc, ihc]; ring
    · intro a b c
      rw [hstep, hrf a b c, ihc, ihf a b c]
      split_ifs with h1 h2 h3 <;> try rfl
      · obtain ⟨rfl, rfl, -, -⟩ := h1; rfl
      all_goals omega

theorem uhsPins_spec (nf : ℕ) (r2c : ℕ → List ℕ) (Q : ℕ → ℚ) (nz nr : ℕ) :
    ∀ (np : ℕ) (s : ℕ × ℕ × ℕ → ℚ) (n : ℕ),
      ((List.range np).foldl (fun p i => uhsAxialFold nf r2c Q i nz nr p) (s, n)).2 =
        n + np * (nz * nr) ∧
      ∀ a b c,
        ((List.range np).foldl (fun p i => uhsAxialFold nf r2c Q i nz nr p) (s, n)).1 (a, b, c) =
          if a < np ∧ b < nz ∧ c < nr ∧ c < nf then
            qavg (r2c (n + (a * nz + b) * nr + c)) Q
          else s (a, b, c) := by
  intro np
  induction np with
  | zero =>
    intro s n
    exact ⟨by simp, by intro a b c; simp⟩
  | succ np ih =>
    intro s n
    obtain ⟨ihc, ihf⟩ := ih s n
    have hstep : (List.range (np + 1)).foldl (fun p i => uhsAxialFold nf r2c Q i nz nr p) (s, n) =
        uhsAxialFold nf r2c Q np nz nr
          ((List.range np).foldl (fun p i => uhsAxialFold nf r2c Q i nz nr p) (s, n)) := by
      simp [List.range_succ]
    have hax := uhsAxialFold_spec nf r2c Q np nr nz
      ((List.range np).foldl (fun p i => uhsAxialFold nf r2c Q i nz nr p) (s, n)).1
      ((List.range np).foldl (fun p i => uhsAxialFold nf r2c Q i nz nr p) (s, n)).2
    rw [Prod.mk.eta] at hax
    obtain ⟨hac, haf⟩ := hax
    constructor
    · rw [hstep, hac, ihc]; ring
    · intro a b c
      rw [hstep, haf a b c, ihc, ihf a b c]
      split_ifs with h1 h2 h3 <;> try rfl
      · rw [h1.1]
        have harith : n + np * (nz * nr) + b * nr + c = n + (np * nz + b) * nr + c := by
          ring
        rw [harith]
      all_goals omega

/-! ## Claims about the projectors and the controller -/

/-- C1: after `update_heat_source`, every cladding ring `(i, j, k)` with
`k ≥ n_fuel_rings` holds exactly `0`, and every fuel ring `(i, j, k)` holds
the arithmetic mean of the tally values `Q(idx)` over the entries of that
ring's forward mapping, the flattened ring index being
`(i*n_axial + j)*n_rings + k`. -/
theorem update_heat_source_spec (g : HeatGeom) (r2c : ℕ → List ℕ) (Q : ℕ → ℚ)
    (src : ℕ × ℕ × ℕ → ℚ) (i j k : ℕ)
    (hi : i < g.n_pins_) (hj : j < g.n_axial_) (hk : k < g.n_rings_) :
    (g.n_fuel_rings_ ≤ k → update_heat_source g r2c Q src (i, j, k) = 0) ∧
    (k < g.n_fuel_rings_ → r2c ((i * g.n_axial_ + j) * g.n_rings_ + k) ≠ [] →
      update_heat_source g r2c Q src (i, j, k) =
        ((r2c ((i * g.n_axial_ + j) * g.n_rings_ + k)).map Q).sum /
          ((r2c ((i * g.n_axial_ + j) * g.n_rings_ + k)).length : ℚ)) := by
  have h := (uhsPins_spec g.n_fuel_rings_ r2c Q g.n_axial_ g.n_rings_ g.n_pins_
    (fun _ => (0 : ℚ)) 0).2 i j k
  constructor
  · intro hcl
    simp only [update_heat_source]
    rw [h, if_neg]
    intro hcond
    omega
  · intro hf _hne
    simp only [update_heat_source]
    rw [h, if_pos ⟨hi, hj, hk, hf⟩, qavg_eq_mean]
    norm_num

/-- Witness for C1 on `gDemo` (one pin, one axial layer, one fuel and one
cladding ring), every forward mapping `[0]` and constant tally value `5`:
the fuel ring receives the mean `5/1` and the cladding ring `0`. -/
theorem update_heat_source_spec_witness :
    (0 : ℕ) < gDemo.n_pins_ ∧ (0 : ℕ) < gDemo.n_axial_ ∧ (1 : ℕ) < gDemo.n_rings_ ∧
    gDemo.n_fuel_rings_ ≤ 1 ∧ (0 : ℕ) < gDemo.n_fuel_rings_ ∧ ([0] : List ℕ) ≠ [] ∧
    update_heat_source gDemo (fun _ => [0]) (fun _ => 5) (fun _ => 99) (0, 0, 1) = 0 ∧
    update_heat_source gDemo (fun _ => [0]) (fun _ => 5) (fun _ => 99) (0, 0, 0) =
      (([0].map (fun _ => (5 : ℚ))).sum) / (([0] : List ℕ).length : ℚ) :=
  ⟨by decide, by decide, by decide, by decide, by decide, by decide,
    (update_heat_source_spec gDemo (fun _ => [0]) (fun _ => 5) (fun _ => 99) 0 0 1
      (by decide) (by decide) (by decide)).1 (by decide),
    (update_heat_source_spec gDemo (fun _ => [0]) (fun _ => 5) (fun _ => 99) 0 0 0
      (by decide) (by decide) (by decide)).2 (by decide) (by decide)⟩

/-- C2: for every cell instance `i` below the registry size,
`update_temperature` writes exactly the weighted average
`Σ(w_r·t_r)/Σ(w_r)` over the entries of `cell_inst_to_ring_[i]`, the weight
of ring `r` being the annulus-area proxy `vol_of` picked from the fuel or
cladding grid by the radial sub-index `r % n_rings`. -/
theorem update_temperature_weighted_avg (g : HeatGeom) (c2r : ℕ → List ℕ)
    (temperature : ℕ → ℚ) (ncells i : ℕ) (hi : i < ncells)
    (hw : ((c2r i).map (vol_of g)).sum ≠ 0) :
    (update_temperature g c2r temperature ncells)[i]? =
      some (some (((c2r i).map (fun r => temperature r * vol_of g r)).sum /
        ((c2r i).map (vol_of g)).sum)) := by
  simp [update_temperature, List.getElem?_range, hi, cellAvgTemp_eq, hw]

/-- Witness for C2 on `gDemo`: one cell mapped to rings `[0, 1]` with
weights `1` and `3` and temperatures `300` and `320`. -/
theorem update_temperature_weighted_avg_witness :
    (0 : ℕ) < 1 ∧
    (([0, 1].map (vol_of gDemo)).sum ≠ 0) ∧
    (update_temperature gDemo (fun _ => [0, 1])
        (fun r => if r = 0 then 300 else 320) 1)[0]? =
      some (some ((([0, 1].map
          (fun r => (if r = 0 then (300 : ℚ) else 320) * vol_of gDemo r)).sum) /
        (([0, 1].map (vol_of gDemo)).sum))) :=
  ⟨by decide, by norm_num [vol_of, gDemo],
    update_temperature_weighted_avg gDemo (fun _ => [0, 1])
      (fun r => if r = 0 then 300 else 320) 1 0 (by decide)
      (by norm_num [vol_of, gDemo])⟩

/-- C9: the final division of `update_temperature` has no guard; whenever a
cell instance's mapped rings have zero total weight the zero-divisor branch
of the embedded guarded division is taken and the non-finite marker `none`
is written. -/
theorem update_temperature_zero_weight_unguarded (g : HeatGeom) (c2r : ℕ → List ℕ)
    (temperature : ℕ → ℚ) (ncells i : ℕ) (hi : i < ncells)
    (hw : ((c2r i).map (vol_of g)).sum = 0) :
    (update_temperature g c2r temperature ncells)[i]? = some none := by
  simp [update_temperature, List.getElem?_range, hi, cellAvgTemp_eq, hw]

/-- Witness for C9 on `gDeg`: the constant fuel grid makes ring `0` a
degenerate radial band of weight `0`, so the lone mapped ring list `[0]`
has zero total weight and the division is reached with divisor `0`. -/
theorem update_temperature_zero_weight_unguarded_witness :
    (0 : ℕ) < 1 ∧
    (([0].map (vol_of gDeg)).sum = 0) ∧
    (update_temperature gDeg (fun _ => [0]) (fun _ => 300) 1)[0]? = some none :=
  ⟨by decide, by norm_num [vol_of, gDeg],
    update_temperature_zero_weight_unguarded gDeg (fun _ => [0]) (fun _ => 300) 1 0
      (by decide) (by norm_num [vol_of, gDeg])⟩

/-- C10: the heat-source projector is idempotent for fixed inputs; the
initial zeroing discards the prior field contents entirely, so a second run
reproduces the state after the first run. -/
theorem update_heat_source_idempotent (g : HeatGeom) (r2c : ℕ → List ℕ) (Q : ℕ → ℚ)
    (src : ℕ × ℕ × ℕ → ℚ) :
    update_heat_source g r2c Q (update_heat_source g r2c Q src) =
      update_heat_source g r2c Q src := rfl

/-- C7: with two timesteps, three Picard iterations and both solvers
active, the trace is exactly six iterations of transport
initialize/advance/finalize, barrier, heat-source projection, heat solve,
barrier, temperature projection: six transport solves and six heat solves,
a barrier before and after each heat solve. -/
theorem solve_step_trace_2_3 :
    solve_step_trace true true 2 3 =
      ([Event.initStep, Event.solveTransport 0, Event.finalizeStep, Event.barrier,
        Event.updateHeatSource, Event.solveHeat, Event.barrier, Event.updateTemperature]
      ++ [Event.initStep, Event.solveTransport 1, Event.finalizeStep, Event.barrier,
        Event.updateHeatSource, Event.solveHeat, Event.barrier, Event.updateTemperature]
      ++ [Event.initStep, Event.solveTransport 2, Event.finalizeStep, Event.barrier,
        Event.updateHeatSource, Event.solveHeat, Event.barrier, Event.updateTemperature]
      ++ [Event.initStep, Event.solveTransport 2, Event.finalizeStep, Event.barrier,
        Event.updateHeatSource, Event.solveHeat, Event.barrier, Event.updateTemperature]
      ++ [Event.initStep, Event.solveTransport 3, Event.finalizeStep, Event.barrier,
        Event.updateHeatSource, Event.solveHeat, Event.barrier, Event.updateTemperature]
      ++ [Event.initStep, Event.solveTransport 4, Event.finalizeStep, Event.barrier,
        Event.updateHeatSource, Event.solveHeat, Event.barrier, Event.updateTemperature]) ∧
    (solve_step_trace true true 2 3).countP
      (fun e => match e with | Event.solveTransport _ => true | _ => false) = 6 ∧
    (solve_step_trace true true 2 3).countP (fun e => e = Event.solveHeat) = 6 := by
  refine ⟨?_, ?_, ?_⟩ <;> decide

/-- C8: in every inner iteration, the advance-step index passed to the
transport solver is exactly `i_timestep * max_timesteps + i_picard` (the
coefficient is the timestep bound, not the Picard bound). -/
theorem transport_advance_index (heatActive : Bool)
    (max_timesteps i_timestep i_picard n : ℕ) :
    Event.solveTransport n ∈ picardIter true heatActive max_timesteps i_timestep i_picard
      ↔ n = i_timestep * max_timesteps + i_picard := by
  cases heatActive <;> simp [picardIter]

/-! ## Supporting lemmas for the mapping builder -/

theorem foldl_preserve {α β : Type} (P : α → Prop) (f : α → β → α)
    (hstep : ∀ a b, P a → P (f a b)) :
    ∀ (l : List β) (a : α), P a → P (l.foldl f a) := by
  intro l
  induction l with
  | nil => intro a h; exact h
  | cons x xs ih => intro a h; exact ih (f a x) (hstep a x h)

theorem azStep_ring_ne {C : Type} [DecidableEq C] (s : MapState C) (ring : ℕ) (c : C)
    (r : ℕ) (h : r ≠ ring) :
    (azStep s ring c).ring_to_cell_inst_ r = s.ring_to_cell_inst_ r := by
  cases hf : findTracked s.tracked c <;> simp [azStep, hf, updFn, h]

theorem azStep_ring_len {C : Type} [DecidableEq C] (s : MapState C) (ring : ℕ) (c : C) :
    ((azStep s ring c).ring_to_cell_inst_ ring).length =
      (s.ring_to_cell_inst_ ring).length + 1 := by
  cases hf : findTracked s.tracked c <;> simp [azStep, hf, updFn]

theorem azFold_ring_ne {C : Type} [DecidableEq C] (ring : ℕ) (f : ℕ → C) (r : ℕ)
    (h : r ≠ ring) : ∀ (m : ℕ) (s : MapState C),
    (azFold ring f m s).ring_to_cell_inst_ r = s.ring_to_cell_inst_ r := by
  intro m
  induction m with
  | zero => intro s; simp [azFold]
  | succ m ih =>
    intro s
    have hstep : azFold ring f (m + 1) s = azStep (azFold ring f m s) ring (f m) := by
      simp [azFold, List.range_succ]
    rw [hstep, azStep_ring_ne _ _ _ _ h, ih]

theorem azFold_ring_len {C : Type} [DecidableEq C] (ring : ℕ) (f : ℕ → C) :
    ∀ (m : ℕ) (s : MapState C),
    ((azFold ring f m s).ring_to_cell_inst_ ring).length =
      (s.ring_to_cell_inst_ ring).length + m := by
  intro m
  induction m with
  | zero => intro s; simp [azFold]
  | succ m ih =>
    intro s
    have hstep : azFold ring f (m + 1) s = azStep (azFold ring f m s) ring (f m) := by
      simp [azFold, List.range_succ]
    rw [hstep, azStep_ring_len, ih]
    omega

theorem ringStep_ring_ne {C : Type} [DecidableEq C] (g : HeatGeom) (cosf sinf : ℚ → ℚ)
    (pi : ℚ) (locate : Position → C) (s : MapState C) (ring : ℕ) (t : ℕ × ℕ × ℕ)
    (r : ℕ) (h : r ≠ ring) :
    (ringStep g cosf sinf pi locate s ring t).ring_to_cell_inst_ r =
      s.ring_to_cell_inst_ r := by
  simp only [ringStep]
  exact azFold_ring_ne ring _ r h 4 s

theorem ringStep_ring_len {C : Type} [DecidableEq C] (g : HeatGeom) (cosf sinf : ℚ → ℚ)
    (pi : ℚ) (locate : Position → C) (s : MapState C) (ring : ℕ) (t : ℕ × ℕ × ℕ) :
    ((ringStep g cosf sinf pi locate s ring t).ring_to_cell_inst_ ring).length =
      (s.ring_to_cell_inst_ ring).length + 4 := by
  simp only [ringStep]
  exact azFold_ring_len ring _ 4 s

theorem initFold_ring_outside {C : Type} [DecidableEq C] (g : HeatGeom)
    (cosf sinf : ℚ → ℚ) (pi : ℚ) (locate : Position → C) :
    ∀ (l : List (ℕ × ℕ × ℕ)) (s : MapState C) (n r : ℕ),
    (r < n ∨ n + l.length ≤ r) →
    (initFold g cosf sinf pi locate l (s, n)).1.ring_to_cell_inst_ r =
      s.ring_to_cell_inst_ r := by
  intro l
  induction l with
  | nil => intro s n r _; rfl
  | cons t ts ih =>
    intro s n r h
    have hstep : initFold g cosf sinf pi locate (t :: ts) (s, n) =
        initFold g cosf sinf pi locate ts
          (ringStep g cosf sinf pi locate s n t, n + 1) := by
      simp [initFold]
    have hlen : (t :: ts).length = ts.length + 1 := rfl
    rw [hlen] at h
    rw [hstep, ih _ _ _ (by omega), ringStep_ring_ne _ _ _ _ _ _ _ _ _ (by omega)]

theorem initFold_ring_len {C : Type} [DecidableEq C] (g : HeatGeom)
    (cosf sinf : ℚ → ℚ) (pi : ℚ) (locate : Position → C) :
    ∀ (l : List (ℕ × ℕ × ℕ)) (s : MapState C) (n r : ℕ),
    n ≤ r → r < n + l.length →
    ((initFold g cosf sinf pi locate l (s, n)).1.ring_to_cell_inst_ r).length =
      (s.ring_to_cell_inst_ r).length + 4 := by
  intro l
  induction l with
  | nil => intro s n r h1 h2; simp at h2; omega
  | cons t ts ih =>
    intro s n r h1 h2
    have hstep : initFold g cosf sinf pi locate (t :: ts) (s, n) =
        initFold g cosf sinf pi locate ts
          (ringStep g cosf sinf pi locate s n t, n + 1) := by
      simp [initFold]
    have hlen : (t :: ts).length = ts.length + 1 := rfl
    rw [hlen] at h2
    rw [hstep]
    by_cases hr : r = n
    · subst hr
      rw [initFold_ring_outside _ _ _ _ _ _ _ _ _ (by omega),
        ringStep_ring_len]
    · rw [ih _ _ _ (by omega) (by omega),
        ringStep_ring_ne _ _ _ _ _ _ _ _ _ (by omega)]

theorem ringTriplesN_length (np nz nr : ℕ) :
    (ringTriplesN np nz nr).length = np * (nz * nr) := by
  simp [ringTriplesN, List.length_flatMap, Function.comp_def, List.map_const',
    List.sum_replicate, smul_eq_mul, mul_comm]

theorem mem_updFn_append (f : ℕ → List ℕ) (key x y r : ℕ) (h : x ∈ f r) :
    x ∈ updFn f key (f key ++ [y]) r := by
  unfold updFn
  by_cases hr : r = key
  · subst hr; rw [if_pos rfl]; exact List.mem_append_left _ h
  · rw [if_neg hr]; exact h

theorem mem_updFn_self (f : ℕ → List ℕ) (key y : ℕ) :
    y ∈ updFn f key (f key ++ [y]) key := by
  unfold updFn
  rw [if_pos rfl]
  exact List.mem_append_right _ (List.mem_singleton.mpr rfl)

theorem mem_updFn_elim (f : ℕ → List ℕ) (key x y r : ℕ)
    (h : x ∈ updFn f key (f key ++ [y]) r) : x ∈ f r ∨ x = y := by
  unfold updFn at h
  by_cases hr : r = key
  · subst hr; rw [if_pos rfl] at h
    rcases List.mem_append.mp h with h | h
    · exact Or.inl h
    · exact Or.inr (List.mem_singleton.mp h)
  · rw [if_neg hr] at h; exact Or.inl h

theorem memIff_upd (ctr rtc : ℕ → List ℕ) (ring idx : ℕ)
    (h : ∀ r c', r ∈ ctr c' ↔ c' ∈ rtc r) (r c' : ℕ) :
    r ∈ updFn ctr idx (ctr idx ++ [ring]) c' ↔
      c' ∈ updFn rtc ring (rtc ring ++ [idx]) r := by
  unfold updFn
  by_cases hc : c' = idx <;> by_cases hr : r = ring <;>
    simp [hc, hr, List.mem_append, h r c', h r idx, h ring c']

theorem azStep_memIff {C : Type} [DecidableEq C] (s : MapState C) (ring : ℕ) (c : C)
    (h : MemIff s) : MemIff (azStep s ring c) := by
  cases hf : findTracked s.tracked c with
  | some idx =>
    intro r c'
    simp only [azStep, hf]
    exact memIff_upd _ _ ring idx h r c'
  | none =>
    intro r c'
    simp only [azStep, hf]
    exact memIff_upd _ _ ring s.cells_.length h r c'

theorem azFold_memIff {C : Type} [DecidableEq C] (ring : ℕ) (f : ℕ → C) (m : ℕ)
    (s : MapState C) (h : MemIff s) : MemIff (azFold ring f m s) := by
  unfold azFold
  exact foldl_preserve MemIff _ (fun s' mm h' => azStep_memIff s' ring (f mm) h') _ s h

theorem ringStep_memIff {C : Type} [DecidableEq C] (g : HeatGeom) (cosf sinf : ℚ → ℚ)
    (pi : ℚ) (locate : Position → C) (s : MapState C) (ring : ℕ) (t : ℕ × ℕ × ℕ)
    (h : MemIff s) : MemIff (ringStep g cosf sinf pi locate s ring t) := by
  simp only [ringStep]
  exact azFold_memIff ring _ 4 s h

theorem findTracked_some_bound {C : Type} [DecidableEq C] (tr : List (C × ℕ)) (c : C)
    (i : ℕ) (h : findTracked tr c = some i) : ∃ p ∈ tr, p.2 = i := by
  unfold findTracked at h
  cases hf : tr.find? (fun p => p.1 = c) with
  | none => rw [hf] at h; simp at h
  | some q =>
    rw [hf] at h
    simp at h
    exact ⟨q, List.mem_of_find?_eq_some hf, h⟩

theorem azStep_coverage {C : Type} [DecidableEq C] (s : MapState C) (ring : ℕ) (c : C)
    (h : Coverage s) : Coverage (azStep s ring c) := by
  obtain ⟨h1, h2, h3⟩ := h
  cases hf : findTracked s.tracked c with
  | some idx =>
    have hidx : idx < s.cells_.length := by
      obtain ⟨p, hp, hpe⟩ := findTracked_some_bound s.tracked c idx hf
      exact hpe ▸ h2 p hp
    refine ⟨?_, ?_, ?_⟩ <;> simp only [azStep, hf]
    · intro i0 hi0
      obtain ⟨r, hr⟩ := h1 i0 hi0
      exact ⟨r, mem_updFn_append _ _ _ _ _ hr⟩
    · exact h2
    · intro r i0 hi0
      rcases mem_updFn_elim _ _ _ _ _ hi0 with h' | h'
      · exact h3 r i0 h'
      · exact h' ▸ hidx
  | none =>
    refine ⟨?_, ?_, ?_⟩ <;> simp only [azStep, hf] <;> simp only [List.length_append,
      List.length_singleton]
    · intro i0 hi0
      by_cases hi' : i0 < s.cells_.length
      · obtain ⟨r, hr⟩ := h1 i0 hi'
        exact ⟨r, mem_updFn_append _ _ _ _ _ hr⟩
      · have : i0 = s.cells_.length := by omega
        subst this
        exact ⟨ring, mem_updFn_self _ _ _⟩
    · intro p hp
      rcases List.mem_append.mp hp with h' | h'
      · have := h2 p h'; omega
      · rw [List.mem_singleton.mp h']; omega
    · intro r i0 hi0
      rcases mem_updFn_elim _ _ _ _ _ hi0 with h' | h'
      · have := h3 r i0 h'; omega
      · omega

theorem azFold_coverage {C : Type} [DecidableEq C] (ring : ℕ) (f : ℕ → C) (m : ℕ)
    (s : MapState C) (h : Coverage s) : Coverage (azFold ring f m s) := by
  unfold azFold
  exact foldl_preserve Coverage _ (fun s' mm h' => azStep_coverage s' ring (f mm) h') _ s h

theorem ringStep_coverage {C : Type} [DecidableEq C] (g : HeatGeom) (cosf sinf : ℚ → ℚ)
    (pi : ℚ) (locate : Position → C) (s : MapState C) (ring : ℕ) (t : ℕ × ℕ × ℕ)
    (h : Coverage s) : Coverage (ringStep g cosf sinf pi locate s ring t) := by
  simp only [ringStep]
  exact azFold_coverage ring _ 4 s h

theorem ringStep_centers_irrel {C : Type} [DecidableEq C] (g : HeatGeom)
    (cs : List (ℚ × ℚ)) (cosf sinf : ℚ → ℚ) (pi : ℚ) (locate : Position → C)
    (s : MapState C) (n : ℕ) (t : ℕ × ℕ × ℕ) :
    ringStep { g with pin_centers_ := cs } cosf sinf pi locate s n t =
      ringStep g cosf sinf pi locate s n t := rfl

theorem initFold_congr {C : Type} [DecidableEq C] (g g' : HeatGeom) (cosf sinf : ℚ → ℚ)
    (pi : ℚ) (locate : Position → C)
    (h : ∀ (s : MapState C) (n : ℕ) (t : ℕ × ℕ × ℕ),
      ringStep g cosf sinf pi locate s n t = ringStep g' cosf sinf pi locate s n t) :
    ∀ (l : List (ℕ × ℕ × ℕ)) (p : MapState C × ℕ),
      initFold g cosf sinf pi locate l p = initFold g' cosf sinf pi locate l p := by
  intro l
  induction l with
  | nil => intro p; rfl
  | cons t ts ih =>
    intro p
    have h1 : initFold g cosf sinf pi locate (t :: ts) p =
        initFold g cosf sinf pi locate ts
          (ringStep g cosf sinf pi locate p.1 p.2 t, p.2 + 1) := by
      simp [initFold]
    have h2 : initFold g' cosf sinf pi locate (t :: ts) p =
        initFold g' cosf sinf pi locate ts
          (ringStep g' cosf sinf pi locate p.1 p.2 t, p.2 + 1) := by
      simp [initFold]
    rw [h1, h2, h, ih]

theorem init_ring_len {C : Type} [DecidableEq C] (g : HeatGeom) (cosf sinf : ℚ → ℚ)
    (pi : ℚ) (locate : Position → C) (n : ℕ)
    (hn : n < g.pin_centers_.length * (g.n_axial_ * g.n_rings_)) :
    ((init_mappings g cosf sinf pi locate).ring_to_cell_inst_ n).length = 4 := by
  unfold init_mappings
  have h := initFold_ring_len g cosf sinf pi locate
    (ringTriplesN g.pin_centers_.length g.n_axial_ g.n_rings_) (initState C) 0 n
    (by omega) (by rw [ringTriplesN_length]; omega)
  simpa [initState] using h

/-! ## Claims about the mapping builder -/

/-- C3: the sample point of azimuthal sample `m` is exactly
`(ravg*cos(2*pi*m/4 + 0.01), ravg*sin(2*pi*m/4 + 0.01), zavg)`; the ring
loop body is independent of the pin index, and two builds whose pin-center
tables differ only in the stored coordinates (same pin count) produce
identical mapping state. -/
theorem sample_points_pin_independent :
    (∀ (cosf sinf : ℚ → ℚ) (pi ravg zavg : ℚ) (m : ℕ),
      samplePos cosf sinf pi ravg zavg m =
        ⟨ravg * cosf (2 * (m : ℚ) * pi / 4 + 0.01),
         ravg * sinf (2 * (m : ℚ) * pi / 4 + 0.01), zavg⟩) ∧
    (∀ (C : Type) (inst : DecidableEq C) (g : HeatGeom) (cosf sinf : ℚ → ℚ) (pi : ℚ)
      (locate : Position → C) (s : MapState C) (ring i i' j k : ℕ),
      ringStep g cosf sinf pi locate s ring (i, j, k) =
        ringStep g cosf sinf pi locate s ring (i', j, k)) ∧
    (∀ (C : Type) (inst : DecidableEq C) (g : HeatGeom) (cs cs' : List (ℚ × ℚ))
      (cosf sinf : ℚ → ℚ) (pi : ℚ) (locate : Position → C),
      cs.length = cs'.length →
      init_mappings { g with pin_centers_ := cs } cosf sinf pi locate =
        init_mappings { g with pin_centers_ := cs' } cosf sinf pi locate) := by
  refine ⟨fun cosf sinf pi ravg zavg m => rfl,
    fun C inst g cosf sinf pi locate s ring i i' j k => rfl, ?_⟩
  intro C inst g cs cs' cosf sinf pi locate h
  have e1 : init_mappings { g with pin_centers_ := cs } cosf sinf pi locate =
      (initFold { g with pin_centers_ := cs } cosf sinf pi locate
        (ringTriplesN cs.length g.n_axial_ g.n_rings_) (initState C, 0)).1 := rfl
  have e2 : init_mappings { g with pin_centers_ := cs' } cosf sinf pi locate =
      (initFold { g with pin_centers_ := cs' } cosf sinf pi locate
        (ringTriplesN cs'.length g.n_axial_ g.n_rings_) (initState C, 0)).1 := rfl
  rw [e1, e2, h]
  rw [initFold_congr { g with pin_centers_ := cs } { g with pin_centers_ := cs' }
    cosf sinf pi locate
    (fun s n t => (ringStep_centers_irrel g cs cosf sinf pi locate s n t).trans
      (ringStep_centers_irrel g cs' cosf sinf pi locate s n t).symm)]

/-- Witness for C3: the same build on `gDeg` with pin center `(0,0)`
replaced by `(5,7)` yields the identical mapping state. -/
theorem sample_points_pin_independent_witness :
    ([((0 : ℚ), (0 : ℚ))].length = [((5 : ℚ), (7 : ℚ))].length) ∧
    init_mappings { gDeg with pin_centers_ := [((0 : ℚ), (0 : ℚ))] }
        (fun _ => 1) (fun _ => 0) 0 (fun _ => (0 : ℕ)) =
      init_mappings { gDeg with pin_centers_ := [((5 : ℚ), (7 : ℚ))] }
        (fun _ => 1) (fun _ => 0) 0 (fun _ => (0 : ℕ)) :=
  ⟨rfl, sample_points_pin_independent.2.2 ℕ instDecidableEqNat gDeg
    [(0, 0)] [(5, 7)] (fun _ => 1) (fun _ => 0) 0 (fun _ => 0) rfl⟩

/-- Counterexample to C4 as stated: on `gDeg` with every sample resolving
to the same cell key, the single ring's forward mapping is `[0, 0, 0, 0]` —
it has duplicate entries and length 4, not the number (1) of distinct cell
instances hit. -/
theorem ring_forward_has_duplicates :
    (init_mappings gDeg (fun _ => 1) (fun _ => 0) 0
      (fun _ => (0 : ℕ))).ring_to_cell_inst_ 0 = [0, 0, 0, 0] ∧
    ¬ ((init_mappings gDeg (fun _ => 1) (fun _ => 0) 0
      (fun _ => (0 : ℕ))).ring_to_cell_inst_ 0).Nodup := by
  refine ⟨by decide, by decide⟩

/-- C4 amended: after `init_mappings`, every in-range ring's forward
mapping has exactly one entry per azimuthal sample — length
`n_azimuthal = 4` — with duplicates retained when several samples resolve
to the same cell instance. -/
theorem ring_forward_one_entry_per_sample {C : Type} [DecidableEq C] (g : HeatGeom)
    (cosf sinf : ℚ → ℚ) (pi : ℚ) (locate : Position → C) (n : ℕ)
    (hn : n < g.pin_centers_.length * g.n_axial_ * g.n_rings_) :
    ((init_mappings g cosf sinf pi locate).ring_to_cell_inst_ n).length = 4 := by
  apply init_ring_len
  rw [Nat.mul_assoc] at hn
  omega

/-- Witness for the amended C4 on `gDeg`: the lone ring's forward mapping
has length 4. -/
theorem ring_forward_one_entry_per_sample_witness :
    (0 : ℕ) < gDeg.pin_centers_.length * gDeg.n_axial_ * gDeg.n_rings_ ∧
    ((init_mappings gDeg (fun _ => 1) (fun _ => 0) 0
      (fun _ => (0 : ℕ))).ring_to_cell_inst_ 0).length = 4 :=
  ⟨by decide, ring_forward_one_entry_per_sample gDeg (fun _ => 1) (fun _ => 0) 0
    (fun _ => (0 : ℕ)) 0 (by decide)⟩

/-- C5: after `init_mappings`, a ring index is in a cell instance's reverse
mapping exactly when the cell-instance index is in that ring's forward
mapping. -/
theorem mapping_forward_reverse_consistent {C : Type} [DecidableEq C] (g : HeatGeom)
    (cosf sinf : ℚ → ℚ) (pi : ℚ) (locate : Position → C) (r c' : ℕ) :
    r ∈ (init_mappings g cosf sinf pi locate).cell_inst_to_ring_ c' ↔
      c' ∈ (init_mappings g cosf sinf pi locate).ring_to_cell_inst_ r := by
  have hinv : MemIff (init_mappings g cosf sinf pi locate) := by
    unfold init_mappings initFold
    exact foldl_preserve (fun p : MapState C × ℕ => MemIff p.1) _
      (fun p t h => ringStep_memIff g cosf sinf pi locate p.1 p.2 t h) _
      (initState C, 0) (fun r0 c0 => by simp [initState])
  exact hinv r c'

/-- C6: after `init_mappings`, every ring index in
`[0, n_pins*n_axial*n_rings)` has a non-empty forward mapping, every
registered cell-instance index appears in at least one forward mapping, and
every forward-mapping entry is a registered index (exact coverage). -/
theorem mapping_nonempty_and_covering {C : Type} [DecidableEq C] (g : HeatGeom)
    (cosf sinf : ℚ → ℚ) (pi : ℚ) (locate : Position → C)
    (hnp : g.n_pins_ = g.pin_centers_.length) :
    (∀ n, n < g.n_pins_ * g.n_axial_ * g.n_rings_ →
      (init_mappings g cosf sinf pi locate).ring_to_cell_inst_ n ≠ []) ∧
    (∀ idx, idx < (init_mappings g cosf sinf pi locate).cells_.length →
      ∃ r, idx ∈ (init_mappings g cosf sinf pi locate).ring_to_cell_inst_ r) ∧
    (∀ r idx, idx ∈ (init_mappings g cosf sinf pi locate).ring_to_cell_inst_ r →
      idx < (init_mappings g cosf sinf pi locate).cells_.length) := by
  have hcov : Coverage (init_mappings g cosf sinf pi locate) := by
    unfold init_mappings initFold
    refine foldl_preserve (fun p : MapState C × ℕ => Coverage p.1) _
      (fun p t h => ringStep_coverage g cosf sinf pi locate p.1 p.2 t h) _
      (initState C, 0) ?_
    refine ⟨?_, ?_, ?_⟩
    · intro idx h; simp [initState] at h
    · intro p hp; simp [initState] at hp
    · intro r idx h; simp [initState] at h
  refine ⟨?_, hcov.1, hcov.2.2⟩
  intro n hn
  have hlen : ((init_mappings g cosf sinf pi locate).ring_to_cell_inst_ n).length = 4 := by
    apply init_ring_len
    rw [hnp, Nat.mul_assoc] at hn
    omega
  intro he
  rw [he] at hlen
  simp at hlen

/-- Witness for C6 on `gDeg`: the lone ring's forward mapping is non-empty,
the lone registered cell instance appears in it, and its entries are
registered. -/
theorem mapping_nonempty_and_covering_witness :
    gDeg.n_pins_ = gDeg.pin_centers_.length ∧
    (0 : ℕ) < gDeg.n_pins_ * gDeg.n_axial_ * gDeg.n_rings_ ∧
    (init_mappings gDeg (fun _ => 1) (fun _ => 0) 0
      (fun _ => (0 : ℕ))).ring_to_cell_inst_ 0 ≠ [] :=
  ⟨rfl, by decide,
    (mapping_nonempty_and_covering gDeg (fun _ => 1) (fun _ => 0) 0
      (fun _ => (0 : ℕ)) rfl).1 0 (by decide)⟩

end Enrico
